import Mathlib

/-!
Verification of the backup orchestration core of ermos/docker-redis-backup.

Modelling conventions: Go strings are modelled as lists of characters
(`GoStr`); Go `error` values are modelled by their message text (`GoErr`);
fallible Go calls are modelled with `Except`; the outcomes of external calls
(Redis commands, storage service requests, the operating system) are supplied
to the modelled functions as explicit inputs, and external service semantics
used by a model are stated in its doc comment.
-/

/-- Go strings, modelled as lists of characters. -/
abbrev GoStr := List Char

/-- Go error values, modelled by their message text. -/
abbrev GoErr := GoStr

/-- `findSubstring` from internal/backup/backup.go (lines 193-200): scans every
start index `i` with `0 ≤ i ≤ len(s) - len(substr)` and compares the slice
`s[i : i+len(substr)]` against `substr`. -/
def findSubstring (s substr : GoStr) : Bool :=
  (List.range (s.length - substr.length + 1)).any
    (fun i => (s.drop i).take substr.length == substr)

/-- `containsString` from internal/backup/backup.go (lines 189-191): a length
guard followed by `findSubstring`. -/
def containsString (s substr : GoStr) : Bool :=
  decide (substr.length ≤ s.length) && findSubstring s substr

/-- The marker Redis includes in INFO persistence output while a background
save is running (backup.go line 185). -/
def bgsaveMarker : GoStr := "rdb_bgsave_in_progress:1".toList

/-- `containsBGSAVEInProgress` from backup.go (lines 183-186). -/
def containsBGSAVEInProgress (info : GoStr) : Bool :=
  containsString info bgsaveMarker

/-- C10: the hand-rolled substring search agrees with contiguous substring
containment: `containsString s substr` is true exactly when `substr` occurs as
a contiguous infix of `s`. -/
theorem containsStringCorrect (s substr : GoStr) :
    containsString s substr = true ↔ substr <:+: s := by
  unfold containsString findSubstring
  simp only [Bool.and_eq_true, List.any_eq_true, List.mem_range, decide_eq_true_eq,
    beq_iff_eq]
  constructor
  · rintro ⟨hlen, i, hi, hslice⟩
    refine ⟨s.take i, s.drop (i + substr.length), ?_⟩
    calc s.take i ++ substr ++ s.drop (i + substr.length)
        = s.take i ++ ((s.drop i).take substr.length ++ (s.drop i).drop substr.length) := by
          rw [hslice, List.drop_drop, Nat.add_comm, List.append_assoc]
      _ = s.take i ++ s.drop i := by rw [List.take_append_drop]
      _ = s := List.take_append_drop i s
  · rintro ⟨u, v, huv⟩
    have hlen : u.length + (substr.length + v.length) = s.length := by
      rw [← huv]; simp [List.length_append]
    refine ⟨by omega, u.length, by omega, ?_⟩
    have hdrop : s.drop u.length = substr ++ v := by
      rw [← huv, List.append_assoc, List.drop_left]
    rw [hdrop, List.take_left]

/-- Error message text wrapped by `triggerBGSAVE` and `waitForBGSAVE` when the
INFO persistence query fails (backup.go lines 103 and 133). -/
def msgInfoFail : GoErr := "failed to get persistence info: ".toList

/-- Error message text wrapped by `triggerBGSAVE` when the BGSAVE command
fails (backup.go line 113). -/
def msgBgsaveFail : GoErr := "BGSAVE command failed: ".toList

/-- `triggerBGSAVE` from backup.go (lines 97-117), over the outcomes of the two
Redis calls it may issue: `infoRes` is the INFO persistence query outcome and
`bgsaveRes` the BGSAVE command outcome. The returned flag records whether the
BGSAVE command was actually issued. -/
def triggerBGSAVE (infoRes : Except GoErr GoStr) (bgsaveRes : Except GoErr Unit) :
    Except GoErr Unit × Bool :=
  match infoRes with
  | Except.error e => (Except.error (msgInfoFail ++ e), false)
  | Except.ok info =>
    if containsBGSAVEInProgress info then (Except.ok (), false)
    else
      match bgsaveRes with
      | Except.error e => (Except.error (msgBgsaveFail ++ e), true)
      | Except.ok _ => (Except.ok (), true)

/-- C3: when the INFO persistence query succeeds and reports the in-progress
indicator as set, `triggerBGSAVE` issues no BGSAVE command and returns
success. -/
theorem triggerIdempotentInProgress (infoRes : Except GoErr GoStr)
    (bgsaveRes : Except GoErr Unit) (info : GoStr)
    (hinfo : infoRes = Except.ok info)
    (hprog : containsBGSAVEInProgress info = true) :
    triggerBGSAVE infoRes bgsaveRes = (Except.ok (), false) := by
  subst hinfo
  simp [triggerBGSAVE, hprog]

/-- Witness for C3 at a concrete INFO string containing the in-progress
marker. -/
theorem triggerIdempotentInProgress_witness :
    containsBGSAVEInProgress ("loading:0_rdb_bgsave_in_progress:1_aof".toList) = true ∧
    triggerBGSAVE (Except.ok ("loading:0_rdb_bgsave_in_progress:1_aof".toList))
      (Except.ok ()) = (Except.ok (), false) :=
  ⟨by decide,
   triggerIdempotentInProgress _ _ _ rfl (by decide)⟩

/-- Error message text wrapped by `applyRetention` when the List call fails
(backup.go line 156). -/
def msgListFail : GoErr := "failed to list backups: ".toList

/-- The names scheduled for deletion by `applyRetention` (backup.go lines
151-175): when the listing exceeds the retention count, the loop deletes
`backups[i]` for `i < len(backups) - retentionCount`. -/
def applyRetentionSchedule (retentionCount : Nat) (backups : List GoStr) : List GoStr :=
  if backups.length ≤ retentionCount then []
  else backups.take (backups.length - retentionCount)

/-- The deletion loop of `applyRetention` (backup.go lines 166-171): every
scheduled name is attempted in order and paired with its Delete outcome; a
failed Delete is only logged and the loop continues. -/
def deleteLoop (deleteRes : GoStr → Except GoErr Unit) :
    List GoStr → List (GoStr × Except GoErr Unit)
  | [] => []
  | b :: rest => (b, deleteRes b) :: deleteLoop deleteRes rest

/-- `applyRetention` from backup.go (lines 151-175), over the outcomes of the
storage calls: returns its result together with the performed delete
attempts. -/
def applyRetention (retentionCount : Nat) (listRes : Except GoErr (List GoStr))
    (deleteRes : GoStr → Except GoErr Unit) :
    Except GoErr Unit × List (GoStr × Except GoErr Unit) :=
  match listRes with
  | Except.error e => (Except.error (msgListFail ++ e), [])
  | Except.ok backups =>
    if backups.length ≤ retentionCount then (Except.ok (), [])
    else
      (Except.ok (), deleteLoop deleteRes (applyRetentionSchedule retentionCount backups))

/-- The deletions performed by the retention step of one `Run` cycle
(backup.go lines 86-94): retention runs only when the configured count is
positive. -/
def runRetentionSchedule (retentionCount : Nat) (backups : List GoStr) : List GoStr :=
  if 0 < retentionCount then applyRetentionSchedule retentionCount backups else []

/-- Error message text wrapped by `Run` around a trigger failure
(backup.go line 67). -/
def msgTriggerFail : GoErr := "failed to trigger BGSAVE: ".toList

/-- Error message text wrapped by `Run` around a wait failure
(backup.go line 72). -/
def msgWaitFail : GoErr := "failed waiting for BGSAVE: ".toList

/-- Error message text wrapped by `Run` around an upload failure
(backup.go line 81). -/
def msgUploadFail : GoErr := "failed to upload backup: ".toList

/-- `Run` from backup.go (lines 62-94), over the outcomes of the Redis and
storage calls of the cycle: trigger, then wait, then upload, then retention.
A retention failure is only logged; `Run` still returns success. The second
component records the delete attempts of the retention step. -/
def Run (infoRes : Except GoErr GoStr) (bgsaveRes waitRes uploadRes : Except GoErr Unit)
    (retentionCount : Nat) (listRes : Except GoErr (List GoStr))
    (deleteRes : GoStr → Except GoErr Unit) :
    Except GoErr Unit × List (GoStr × Except GoErr Unit) :=
  match (triggerBGSAVE infoRes bgsaveRes).1 with
  | Except.error e => (Except.error (msgTriggerFail ++ e), [])
  | Except.ok _ =>
    match waitRes with
    | Except.error e => (Except.error (msgWaitFail ++ e), [])
    | Except.ok _ =>
      match uploadRes with
      | Except.error e => (Except.error (msgUploadFail ++ e), [])
      | Except.ok _ =>
        if 0 < retentionCount then
          (Except.ok (), (applyRetention retentionCount listRes deleteRes).2)
        else (Except.ok (), [])

/-- The delete loop attempts exactly the scheduled names, in order, whatever
the individual Delete outcomes are. -/
theorem deleteLoop_fst (deleteRes : GoStr → Except GoErr Unit) (l : List GoStr) :
    (deleteLoop deleteRes l).map Prod.fst = l := by
  induction l with
  | nil => rfl
  | cons b rest ih => simp [deleteLoop, ih]

/-- C1: the retention step of a cycle deletes nothing when the retention count
is zero or the listing does not exceed it; when the listing of length `n`
exceeds a positive count `r`, it deletes exactly the first `n - r` names of
the ascending listing, which are the `n - r` lexically smallest names, in
ascending order. -/
theorem retentionPolicyCorrect (r : Nat) (backups : List GoStr)
    (hs : List.Sorted (· ≤ ·) backups) :
    (r = 0 → runRetentionSchedule r backups = []) ∧
    (backups.length ≤ r → runRetentionSchedule r backups = []) ∧
    (0 < r → r < backups.length →
      runRetentionSchedule r backups = backups.take (backups.length - r) ∧
      (runRetentionSchedule r backups).length = backups.length - r ∧
      List.Sorted (· ≤ ·) (runRetentionSchedule r backups) ∧
      (∀ x ∈ runRetentionSchedule r backups,
        ∀ y ∈ backups.drop (backups.length - r), x ≤ y)) := by
  refine ⟨?_, ?_, ?_⟩
  · intro h0; simp [runRetentionSchedule, h0]
  · intro hle
    by_cases hr : 0 < r
    · simp [runRetentionSchedule, applyRetentionSchedule, hr, hle]
    · simp [runRetentionSchedule, hr]
  · intro hr hn
    have heq : runRetentionSchedule r backups = backups.take (backups.length - r) := by
      simp [runRetentionSchedule, applyRetentionSchedule, hr, Nat.not_le.mpr hn]
    refine ⟨heq, ?_, ?_, ?_⟩
    · rw [heq, List.length_take]; omega
    · rw [heq]; exact hs.sublist (List.take_sublist _ _)
    · rw [heq]
      have hsplit : backups.take (backups.length - r) ++ backups.drop (backups.length - r)
          = backups := List.take_append_drop _ _
      have hp : List.Pairwise (· ≤ ·)
          (backups.take (backups.length - r) ++ backups.drop (backups.length - r)) := by
        rw [hsplit]; exact hs
      exact (List.pairwise_append.mp hp).2.2

/-- Witness for C1 on a concrete sorted three-name listing with retention
count one. -/
theorem retentionPolicyCorrect_witness :
    List.Sorted (· ≤ ·) ["a.rdb".toList, "b.rdb".toList, "c.rdb".toList] ∧
    ((1 : Nat) = 0 → runRetentionSchedule 1 ["a.rdb".toList, "b.rdb".toList, "c.rdb".toList] = []) ∧
    (["a.rdb".toList, "b.rdb".toList, "c.rdb".toList].length ≤ 1 →
      runRetentionSchedule 1 ["a.rdb".toList, "b.rdb".toList, "c.rdb".toList] = []) ∧
    (0 < 1 → 1 < ["a.rdb".toList, "b.rdb".toList, "c.rdb".toList].length →
      runRetentionSchedule 1 ["a.rdb".toList, "b.rdb".toList, "c.rdb".toList] =
        ["a.rdb".toList, "b.rdb".toList, "c.rdb".toList].take
          (["a.rdb".toList, "b.rdb".toList, "c.rdb".toList].length - 1) ∧
      (runRetentionSchedule 1 ["a.rdb".toList, "b.rdb".toList, "c.rdb".toList]).length =
        ["a.rdb".toList, "b.rdb".toList, "c.rdb".toList].length - 1 ∧
      List.Sorted (· ≤ ·)
        (runRetentionSchedule 1 ["a.rdb".toList, "b.rdb".toList, "c.rdb".toList]) ∧
      (∀ x ∈ runRetentionSchedule 1 ["a.rdb".toList, "b.rdb".toList, "c.rdb".toList],
        ∀ y ∈ ["a.rdb".toList, "b.rdb".toList, "c.rdb".toList].drop
          (["a.rdb".toList, "b.rdb".toList, "c.rdb".toList].length - 1), x ≤ y)) := by
  have hsorted : List.Sorted (· ≤ ·) ["a.rdb".toList, "b.rdb".toList, "c.rdb".toList] := by
    decide
  exact ⟨hsorted, retentionPolicyCorrect 1 _ hsorted⟩

/-- C2: retention failures are non-fatal. If trigger, wait and upload succeed,
`Run` returns success whatever the List outcome and the individual Delete
outcomes are; and the retention pass attempts every scheduled deletion even
when some Delete calls fail. -/
theorem retentionFailuresNonFatal (infoRes : Except GoErr GoStr)
    (bgsaveRes waitRes uploadRes : Except GoErr Unit) (r : Nat)
    (listRes : Except GoErr (List GoStr)) (deleteRes : GoStr → Except GoErr Unit)
    (ht : (triggerBGSAVE infoRes bgsaveRes).1 = Except.ok ())
    (hw : waitRes = Except.ok ()) (hu : uploadRes = Except.ok ()) :
    (Run infoRes bgsaveRes waitRes uploadRes r listRes deleteRes).1 = Except.ok () ∧
    (∀ backups, listRes = Except.ok backups → 0 < r →
      (Run infoRes bgsaveRes waitRes uploadRes r listRes deleteRes).2.map Prod.fst =
        applyRetentionSchedule r backups) := by
  subst hw hu
  constructor
  · unfold Run
    rw [ht]
    by_cases hr : 0 < r <;> simp [hr]
  · intro backups hlist hr
    subst hlist
    unfold Run
    rw [ht]
    simp only [hr, if_true]
    unfold applyRetention
    by_cases hle : backups.length ≤ r
    · simp [hle, applyRetentionSchedule]
    · simp [hle, deleteLoop_fst]

/-- Witness for C2: a cycle whose trigger, wait and upload succeed, whose
listing holds two names, and whose every Delete call fails, still reports
success and attempts the one scheduled deletion. -/
theorem retentionFailuresNonFatal_witness :
    (triggerBGSAVE (Except.ok ("rdb_bgsave_in_progress:0".toList)) (Except.ok ())).1 =
      Except.ok () ∧
    ((Run (Except.ok ("rdb_bgsave_in_progress:0".toList)) (Except.ok ()) (Except.ok ())
        (Except.ok ()) 1 (Except.ok ["a.rdb".toList, "b.rdb".toList])
        (fun _ => Except.error ("access denied".toList))).1 = Except.ok () ∧
      (∀ backups,
        (Except.ok ["a.rdb".toList, "b.rdb".toList] :
          Except GoErr (List GoStr)) = Except.ok backups → 0 < 1 →
        (Run (Except.ok ("rdb_bgsave_in_progress:0".toList)) (Except.ok ()) (Except.ok ())
          (Except.ok ()) 1 (Except.ok ["a.rdb".toList, "b.rdb".toList])
          (fun _ => Except.error ("access denied".toList))).2.map Prod.fst =
          applyRetentionSchedule 1 backups)) := by
  have ht : (triggerBGSAVE (Except.ok ("rdb_bgsave_in_progress:0".toList))
      (Except.ok ())).1 = Except.ok () := by rfl
  exact ⟨ht, retentionFailuresNonFatal _ _ _ _ _ _ _ ht rfl rfl⟩

/-- Classification of the result of the wait-for-completion phase: normal
completion, the context error from a cancellation, or a protocol error
from a failed status query. -/
inductive WaitOutcome where
  | completed : WaitOutcome
  | ctxCancelled : WaitOutcome
  | protoError : GoErr → WaitOutcome
deriving DecidableEq

/-- `waitForBGSAVE` from backup.go (lines 120-142), over an explicit schedule
of ticks of its one-second ticker: `cancelled i` tells whether the context is
done by tick `i`, and `infoAt i` is the outcome of the INFO persistence query
at tick `i`. Each iteration observes cancellation first, then queries the
status; the result pairs the tick at which the loop exits with its outcome,
and is `none` when the fuel is exhausted. -/
def waitForBGSAVE (cancelled : Nat → Bool) (infoAt : Nat → Except GoErr GoStr) :
    Nat → Nat → Option (Nat × WaitOutcome)
  | 0, _ => none
  | fuel + 1, i =>
    if cancelled i then some (i, WaitOutcome.ctxCancelled)
    else
      match infoAt i with
      | Except.error e => some (i, WaitOutcome.protoError (msgInfoFail ++ e))
      | Except.ok info =>
        if containsBGSAVEInProgress info then
          waitForBGSAVE cancelled infoAt fuel (i + 1)
        else some (i, WaitOutcome.completed)

/-- The polling loop exits with the context error at the first tick that
observes cancellation, provided every earlier tick saw an uncancelled context
and an in-progress status. -/
theorem waitForBGSAVE_cancel_aux (cancelled : Nat → Bool)
    (infoAt : Nat → Except GoErr GoStr) (k : Nat)
    (hrun : ∀ j, j < k → cancelled j = false ∧
      ∃ s, infoAt j = Except.ok s ∧ containsBGSAVEInProgress s = true)
    (hc : cancelled k = true) :
    ∀ fuel start, start ≤ k → k - start < fuel →
      waitForBGSAVE cancelled infoAt fuel start = some (k, WaitOutcome.ctxCancelled) := by
  intro fuel
  induction fuel with
  | zero => intro start _ h; omega
  | succ n ih =>
    intro start hsk hfuel
    by_cases hstart : start = k
    · subst hstart
      unfold waitForBGSAVE
      rw [hc]
      simp
    · have hlt : start < k := by omega
      obtain ⟨hcf, s, hinfo, hprog⟩ := hrun start hlt
      unfold waitForBGSAVE
      rw [hcf, hinfo]
      simp only [Bool.false_eq_true, if_false, hprog, if_true]
      exact ih (start + 1) (by omega) (by omega)

/-- C6: if the context is cancelled during the wait phase while every earlier
tick still saw an in-progress snapshot, the wait exits at the very tick that
observes the cancellation, one polling interval at most after the
cancellation, and its outcome is the context cancellation, distinct from
every protocol-error outcome. -/
theorem waitCancellationClassified (cancelled : Nat → Bool)
    (infoAt : Nat → Except GoErr GoStr) (k fuel : Nat)
    (hrun : ∀ j, j < k → cancelled j = false ∧
      ∃ s, infoAt j = Except.ok s ∧ containsBGSAVEInProgress s = true)
    (hc : cancelled k = true) (hfuel : k < fuel) :
    waitForBGSAVE cancelled infoAt fuel 0 = some (k, WaitOutcome.ctxCancelled) ∧
    (∀ e, WaitOutcome.ctxCancelled ≠ WaitOutcome.protoError e) ∧
    WaitOutcome.ctxCancelled ≠ WaitOutcome.completed := by
  refine ⟨?_, ?_, ?_⟩
  case refine_2 => intro e h; cases h
  case refine_3 => intro h; cases h
  exact waitForBGSAVE_cancel_aux cancelled infoAt k hrun hc fuel 0 (Nat.zero_le k)
    (by omega)

/-- Witness for C6: ticks observe an uncancelled in-progress status at tick 0
and a cancelled context at tick 1. -/
theorem waitCancellationClassified_witness :
    ((fun i => decide (1 ≤ i)) 1 = true ∧ 1 < 3) ∧
    (waitForBGSAVE (fun i => decide (1 ≤ i))
        (fun _ => Except.ok ("rdb_bgsave_in_progress:1".toList)) 3 0 =
      some (1, WaitOutcome.ctxCancelled) ∧
    (∀ e, WaitOutcome.ctxCancelled ≠ WaitOutcome.protoError e) ∧
    WaitOutcome.ctxCancelled ≠ WaitOutcome.completed) := by
  refine ⟨⟨by decide, by decide⟩, ?_⟩
  refine waitCancellationClassified _ _ 1 3 ?_ (by decide) (by decide)
  intro j hj
  have hj0 : j = 0 := by omega
  subst hj0
  exact ⟨by decide, "rdb_bgsave_in_progress:1".toList, rfl, by decide⟩

/-- Go `strings.HasSuffix`. -/
def hasSuffix (s suffix : GoStr) : Bool := suffix.isSuffixOf s

/-- Go `strings.TrimSuffix`: removes one trailing occurrence of the suffix
when present. -/
def trimSuffix (s suffix : GoStr) : GoStr :=
  if hasSuffix s suffix then s.take (s.length - suffix.length) else s

/-- `getKey` from internal/storage/s3.go (lines 138-143). -/
def getKey (backupPfx backupName : GoStr) : GoStr :=
  if backupPfx = [] then backupName
  else trimSuffix backupPfx ['/'] ++ '/' :: backupName

/-- `getObjectName` from internal/storage/gcp.go (lines 130-135). -/
def getObjectName (backupPfx backupName : GoStr) : GoStr :=
  if backupPfx = [] then backupName
  else trimSuffix backupPfx ['/'] ++ '/' :: backupName

/-- The destination key as the spec words it: the configured prefix stripped
of its trailing separator, then a separator, then the artifact name; the bare
name when the configured prefix is empty. -/
def specDestKey (pfx name : GoStr) : GoStr :=
  if pfx = [] then name
  else (if hasSuffix pfx ['/'] then pfx.take (pfx.length - 1) else pfx) ++ '/' :: name

/-- Whether a Go path is rooted (starts with the separator). -/
def isRooted : GoStr → Bool
  | [] => false
  | c :: _ => c == '/'

/-- One element step of the Go `path.Clean` algorithm: empty and dot elements
are dropped, a dotdot element pops the last real element (or is kept at the
front of a relative path, or dropped at the root), any other element is
pushed. The stack holds the processed elements in reverse. -/
def cleanPush (rooted : Bool) (stack : List GoStr) (comp : GoStr) : List GoStr :=
  if comp = [] ∨ comp = ['.'] then stack
  else if comp = ['.', '.'] then
    match stack with
    | [] => if rooted then [] else [comp]
    | top :: rest => if top = ['.', '.'] then comp :: stack else rest
  else comp :: stack

/-- Splits a path into its separator-delimited components. -/
def splitComps : GoStr → List GoStr
  | [] => [[]]
  | c :: rest =>
    match splitComps rest with
    | [] => [[c]]
    | h :: t => if c = '/' then [] :: h :: t else (c :: h) :: t

/-- Joins components with the separator. -/
def joinComps : List GoStr → GoStr
  | [] => []
  | [x] => x
  | x :: y :: t => x ++ '/' :: joinComps (y :: t)

/-- Go `path/filepath.Clean` for slash-separated paths, by its documented
element algorithm: iteratively drop empty and dot elements, cancel dotdot
elements against preceding real elements, keep uncancellable dotdot elements
of relative paths, and return dot for an emptied relative path and the bare
separator for an emptied rooted path. -/
def pathClean (path : GoStr) : GoStr :=
  if path = [] then ['.']
  else
    match ((splitComps path).foldl (cleanPush (isRooted path)) []).reverse with
    | [] => if isRooted path then ['/'] else ['.']
    | c :: cs => (if isRooted path then ['/'] else []) ++ joinComps (c :: cs)

/-- Go `filepath.Join` on two elements, as used by the local backend
(`filepath.Join(basePath, backupName)`): skip leading empty elements, join
with the separator, clean. -/
def filepathJoin2 (a b : GoStr) : GoStr :=
  if a = [] then (if b = [] then [] else pathClean b)
  else pathClean (a ++ '/' :: b)

/-- The destination path computed by `LocalStorage.Upload`
(internal/storage/storage.go line 82). -/
def localUploadDestPath (basePath backupName : GoStr) : GoStr :=
  filepathJoin2 basePath backupName

example : pathClean ("/a//b/./c/..".toList) = "/a/b".toList := by decide
example : pathClean ("a/../..".toList) = "..".toList := by decide
example : pathClean ("/..".toList) = "/".toList := by decide
example : pathClean ("".toList) = ".".toList := by decide
example : pathClean ("./".toList) = ".".toList := by decide
example : pathClean ("//".toList) = "/".toList := by decide
example : pathClean ("../../a".toList) = "../../a".toList := by decide
example : filepathJoin2 ("/backups".toList) ("b.rdb".toList) = "/backups/b.rdb".toList := by
  decide

/-- Unfolding equation of `splitComps` on a cons cell. -/
theorem splitComps_cons (c : Char) (l : GoStr) :
    splitComps (c :: l) =
      match splitComps l with
      | [] => [[c]]
      | h :: t => if c = '/' then [] :: h :: t else (c :: h) :: t := rfl

/-- Unfolding equation of `joinComps` on two or more components. -/
theorem joinComps_cons2 (x y : GoStr) (t : List GoStr) :
    joinComps (x :: y :: t) = x ++ '/' :: joinComps (y :: t) := rfl

/-- `splitComps` never returns the empty list. -/
theorem splitComps_ne_nil (p : GoStr) : splitComps p ≠ [] := by
  cases p with
  | nil => simp [splitComps]
  | cons c rest =>
    unfold splitComps
    cases h : splitComps rest with
    | nil => simp
    | cons hd tl => by_cases hc : c = '/' <;> simp [hc]

/-- A separator-free string is a single component. -/
theorem splitComps_no_sep (n : GoStr) (hn : '/' ∉ n) : splitComps n = [n] := by
  induction n with
  | nil => rfl
  | cons c rest ih =>
    have hc : c ≠ '/' := fun h => hn (h ▸ List.mem_cons_self c rest)
    have hrest : '/' ∉ rest := fun h => hn (List.mem_cons_of_mem c h)
    unfold splitComps
    rw [ih hrest]
    simp [hc]

/-- Splitting distributes over a separator between two parts. -/
theorem splitComps_append (a n : GoStr) :
    splitComps (a ++ '/' :: n) = splitComps a ++ splitComps n := by
  induction a with
  | nil =>
    cases h : splitComps n with
    | nil => exact absurd h (splitComps_ne_nil n)
    | cons hd tl => simp [splitComps, h]
  | cons c a ih =>
    have hne := splitComps_ne_nil (a ++ '/' :: n)
    cases h : splitComps (a ++ '/' :: n) with
    | nil => exact absurd h hne
    | cons hd tl =>
      have hane := splitComps_ne_nil a
      cases ha : splitComps a with
      | nil => exact absurd ha hane
      | cons ahd atl =>
        have : hd = ahd ∧ tl = atl ++ splitComps n := by
          rw [ha] at ih
          rw [h] at ih
          simpa using ih
        obtain ⟨h1, h2⟩ := this
        subst h1 h2
        show splitComps (c :: (a ++ '/' :: n)) = splitComps (c :: a) ++ splitComps n
        rw [splitComps_cons, splitComps_cons, h, ha]
        by_cases hc : c = '/' <;> simp [hc]

/-- Appending one component to a nonempty component list appends one
separator and the component to the joined string. -/
theorem joinComps_append_single (l : List GoStr) (x : GoStr) (hl : l ≠ []) :
    joinComps (l ++ [x]) = joinComps l ++ '/' :: x := by
  induction l with
  | nil => exact absurd rfl hl
  | cons y t ih =>
    cases t with
    | nil => simp [joinComps]
    | cons z t2 =>
      have h2 : joinComps ((z :: t2) ++ [x]) = joinComps (z :: t2) ++ '/' :: x :=
        ih (by simp)
      show joinComps (y :: z :: (t2 ++ [x])) = joinComps (y :: z :: t2) ++ '/' :: x
      rw [joinComps_cons2, joinComps_cons2]
      have h3 : joinComps (z :: (t2 ++ [x])) = joinComps (z :: t2) ++ '/' :: x := h2
      rw [h3, List.append_assoc]
      rfl

/-- Appending a separator and a plain element to an already clean path just
extends it: the core of the C4 statement about the local backend. -/
theorem pathClean_append_clean (a n : GoStr)
    (ha : pathClean a = a) (ha1 : a ≠ []) (ha2 : a ≠ ['/']) (ha3 : a ≠ ['.'])
    (hn : '/' ∉ n) (hn0 : n ≠ []) (hn1 : n ≠ ['.']) (hn2 : n ≠ ['.', '.']) :
    pathClean (a ++ '/' :: n) = a ++ '/' :: n := by
  have hroot : isRooted (a ++ '/' :: n) = isRooted a := by
    cases a with
    | nil => exact absurd rfl ha1
    | cons c t => rfl
  have happ : a ++ '/' :: n ≠ [] := by
    cases a <;> simp
  unfold pathClean
  rw [if_neg happ, hroot, splitComps_append, splitComps_no_sep n hn, List.foldl_append]
  have hpush : cleanPush (isRooted a)
      ((splitComps a).foldl (cleanPush (isRooted a)) []) n =
      n :: (splitComps a).foldl (cleanPush (isRooted a)) [] := by
    unfold cleanPush
    rw [if_neg (by simp [hn0, hn1]), if_neg hn2]
  simp only [List.foldl_cons, List.foldl_nil, hpush]
  have hstack := ha
  unfold pathClean at hstack
  rw [if_neg ha1] at hstack
  cases hs : ((splitComps a).foldl (cleanPush (isRooted a)) []).reverse with
  | nil =>
    rw [hs] at hstack
    by_cases hr : isRooted a = true
    · rw [if_pos hr] at hstack
      exact absurd hstack.symm ha2
    · have hr2 : isRooted a = false := by
        cases h2 : isRooted a
        · rfl
        · exact absurd h2 hr
      rw [hr2] at hstack
      simp at hstack
      exact absurd hstack.symm ha3
  | cons c cs =>
    rw [hs] at hstack
    have hstack2 : (if isRooted a = true then ['/'] else []) ++ joinComps (c :: cs) = a :=
      hstack
    have hrev : (n :: (splitComps a).foldl (cleanPush (isRooted a)) []).reverse =
        c :: (cs ++ [n]) := by
      rw [List.reverse_cons, hs]
      rfl
    rw [hrev]
    show (if isRooted a = true then ['/'] else []) ++ joinComps (c :: (cs ++ [n])) =
      a ++ '/' :: n
    have hjoin2 : joinComps (c :: (cs ++ [n])) = joinComps (c :: cs) ++ '/' :: n :=
      joinComps_append_single (c :: cs) n (by simp)
    rw [hjoin2, ← List.append_assoc, hstack2]

/-- C4: the destination key of the object-store backends is the configured
prefix stripped of its trailing separator, then a separator, then the artifact
name, with the bare name for an empty prefix; and the local backend uploads to
the base path joined with the artifact name. The base path is assumed to be a
nonempty clean path other than the bare separator or dot, and the artifact
name a nonempty separator-free name other than dot and dotdot. -/
theorem destKeyComputation (pfx name base : GoStr)
    (hbase : pathClean base = base) (hb1 : base ≠ []) (hb2 : base ≠ ['/'])
    (hb3 : base ≠ ['.'])
    (hn : '/' ∉ name) (hn0 : name ≠ []) (hn1 : name ≠ ['.'])
    (hn2 : name ≠ ['.', '.']) :
    getKey pfx name = specDestKey pfx name ∧
    getObjectName pfx name = specDestKey pfx name ∧
    (pfx = [] → getKey pfx name = name ∧ getObjectName pfx name = name) ∧
    localUploadDestPath base name = base ++ '/' :: name := by
  refine ⟨?_, ?_, ?_, ?_⟩
  · simp [getKey, specDestKey, trimSuffix]
  · simp [getObjectName, specDestKey, trimSuffix]
  · intro h0; simp [getKey, getObjectName, h0]
  · unfold localUploadDestPath filepathJoin2
    rw [if_neg hb1]
    exact pathClean_append_clean base name hbase hb1 hb2 hb3 hn hn0 hn1 hn2

/-- Witness for C4 on the default configuration values: prefix
redis-backups, base path /backups, and a timestamped artifact name. -/
theorem destKeyComputation_witness :
    (pathClean ("/backups".toList) = "/backups".toList ∧
      '/' ∉ ("redis-backup_2024-01-01_00-00-00.rdb".toList)) ∧
    (getKey ("redis-backups".toList) ("redis-backup_2024-01-01_00-00-00.rdb".toList) =
        specDestKey ("redis-backups".toList)
          ("redis-backup_2024-01-01_00-00-00.rdb".toList) ∧
      getObjectName ("redis-backups".toList)
          ("redis-backup_2024-01-01_00-00-00.rdb".toList) =
        specDestKey ("redis-backups".toList)
          ("redis-backup_2024-01-01_00-00-00.rdb".toList) ∧
      (("redis-backups".toList : GoStr) = [] →
        getKey ("redis-backups".toList)
            ("redis-backup_2024-01-01_00-00-00.rdb".toList) =
          "redis-backup_2024-01-01_00-00-00.rdb".toList ∧
        getObjectName ("redis-backups".toList)
            ("redis-backup_2024-01-01_00-00-00.rdb".toList) =
          "redis-backup_2024-01-01_00-00-00.rdb".toList) ∧
      localUploadDestPath ("/backups".toList)
          ("redis-backup_2024-01-01_00-00-00.rdb".toList) =
        "/backups".toList ++ '/' :: "redis-backup_2024-01-01_00-00-00.rdb".toList) :=
  ⟨⟨by decide, by decide⟩,
   destKeyComputation _ _ _ (by decide) (by decide) (by decide) (by decide)
     (by decide) (by decide) (by decide) (by decide)⟩

/-- A UTC instant at second precision, the input of the name generator. -/
structure UTCTime where
  year : Nat
  month : Nat
  day : Nat
  hour : Nat
  minute : Nat
  second : Nat
deriving DecidableEq

/-- Calendar field ranges of a well-formed instant. -/
def UTCTime.valid (t : UTCTime) : Prop :=
  t.year ≤ 9999 ∧ 1 ≤ t.month ∧ t.month ≤ 12 ∧ 1 ≤ t.day ∧ t.day ≤ 31 ∧
    t.hour ≤ 23 ∧ t.minute ≤ 59 ∧ t.second ≤ 59

instance (t : UTCTime) : Decidable (UTCTime.valid t) := by
  unfold UTCTime.valid; infer_instance

/-- Chronological order of instants: lexicographic on the calendar fields.
Two instants at second precision are at least one second apart exactly when
they are distinct, and the earlier one is the chronologically smaller. -/
def chronoLt (a b : UTCTime) : Prop :=
  a.year < b.year ∨ (a.year = b.year ∧ (a.month < b.month ∨ (a.month = b.month ∧
    (a.day < b.day ∨ (a.day = b.day ∧ (a.hour < b.hour ∨ (a.hour = b.hour ∧
      (a.minute < b.minute ∨ (a.minute = b.minute ∧ a.second < b.second)))))))))

instance (a b : UTCTime) : Decidable (chronoLt a b) := by
  unfold chronoLt; infer_instance

/-- Two-digit zero-padded decimal rendering, as the Go time layout elements
01, 02, 15, 04 and 05 produce for in-range values. -/
def pad2 (n : Nat) : GoStr := [Nat.digitChar (n / 10), Nat.digitChar (n % 10)]

/-- Four-digit zero-padded decimal rendering, as the Go time layout element
2006 produces for in-range years. -/
def pad4 (n : Nat) : GoStr :=
  [Nat.digitChar (n / 1000), Nat.digitChar (n / 100 % 10),
   Nat.digitChar (n / 10 % 10), Nat.digitChar (n % 10)]

/-- The Go layout 2006-01-02_15-04-05 applied to a UTC instant
(backup.go line 146). -/
def formatTimestamp (t : UTCTime) : GoStr :=
  pad4 t.year ++ '-' :: pad2 t.month ++ '-' :: pad2 t.day ++ '_' :: pad2 t.hour ++
    '-' :: pad2 t.minute ++ '-' :: pad2 t.second

/-- The fixed name part of `generateBackupName` (backup.go line 147). -/
def backupNameHead : GoStr := "redis-backup_".toList

/-- The recognized backup extension. -/
def rdbExt : GoStr := ".rdb".toList

/-- `generateBackupName` from backup.go (lines 145-148), as a function of the
UTC naming instant. -/
def generateBackupName (t : UTCTime) : GoStr :=
  backupNameHead ++ formatTimestamp t ++ rdbExt

/-- Decimal digits render to strictly increasing characters. -/
theorem digitChar_lt : ∀ a, a < 10 → ∀ b, b < 10 → a < b →
    Nat.digitChar a < Nat.digitChar b := by decide

/-- Strict lexicographic order on character lists is irreflexive. -/
theorem lexIrrefl (l : GoStr) : ¬ List.Lex (· < ·) l l := by
  induction l with
  | nil => intro h; cases h
  | cons c t ih =>
    intro h
    cases h with
    | rel h => exact absurd h (lt_irrefl c)
    | cons h => exact ih h

/-- A common prefix preserves strict lexicographic order. -/
theorem lex_append_left (p a b : GoStr) (h : List.Lex (· < ·) a b) :
    List.Lex (· < ·) (p ++ a) (p ++ b) := by
  induction p with
  | nil => exact h
  | cons c p ih => exact List.Lex.cons ih

/-- Strict lexicographic order between equal-length lists is preserved by any
tails. -/
theorem lex_append_len {a b : GoStr} (hlen : a.length = b.length)
    (h : List.Lex (· < ·) a b) (s t : GoStr) :
    List.Lex (· < ·) (a ++ s) (b ++ t) := by
  induction h generalizing s t with
  | nil => simp at hlen
  | rel h => exact List.Lex.rel h
  | cons h ih => exact List.Lex.cons (ih (by simpa using hlen) s t)

/-- Two-digit rendering is strictly monotone below 100. -/
theorem pad2_lex {a b : Nat} (ha : a < 100) (hb : b < 100) (h : a < b) :
    List.Lex (· < ·) (pad2 a) (pad2 b) := by
  have hd : a / 10 ≤ b / 10 := Nat.div_le_div_right h.le
  rcases Nat.lt_or_ge (a / 10) (b / 10) with hdiv | hdiv
  · exact List.Lex.rel (digitChar_lt _ (by omega) _ (by omega) hdiv)
  · have heq : a / 10 = b / 10 := le_antisymm hd hdiv
    have hm1 := Nat.div_add_mod a 10
    have hm2 := Nat.div_add_mod b 10
    have hmod : a % 10 < b % 10 := by omega
    unfold pad2
    rw [heq]
    exact List.Lex.cons (List.Lex.rel
      (digitChar_lt _ (Nat.mod_lt a (by omega)) _ (Nat.mod_lt b (by omega)) hmod))

/-- Four-digit rendering splits into two two-digit renderings. -/
theorem pad4_eq (n : Nat) : pad4 n = pad2 (n / 100) ++ pad2 (n % 100) := by
  unfold pad4 pad2
  have h1 : n / 1000 = n / 100 / 10 := by rw [Nat.div_div_eq_div_mul]
  have h2 : n / 10 % 10 = n % 100 / 10 := by
    rw [← Nat.mod_mul_right_div_self]
  have h3 : n % 10 = n % 100 % 10 := by
    rw [Nat.mod_mod_of_dvd n (by norm_num)]
  rw [h1, h2, h3]
  rfl

/-- Four-digit rendering is strictly monotone below 10000. -/
theorem pad4_lex {a b : Nat} (ha : a < 10000) (hb : b < 10000) (h : a < b) :
    List.Lex (· < ·) (pad4 a) (pad4 b) := by
  rw [pad4_eq, pad4_eq]
  have hd : a / 100 ≤ b / 100 := Nat.div_le_div_right h.le
  rcases Nat.lt_or_ge (a / 100) (b / 100) with hdiv | hdiv
  · exact lex_append_len (by simp [pad2])
      (pad2_lex (by omega) (by omega) hdiv) _ _
  · have heq : a / 100 = b / 100 := le_antisymm hd hdiv
    have hm1 := Nat.div_add_mod a 100
    have hm2 := Nat.div_add_mod b 100
    have hmod : a % 100 < b % 100 := by omega
    rw [heq]
    exact lex_append_left _ _ _
      (pad2_lex (Nat.mod_lt a (by omega)) (Nat.mod_lt b (by omega)) hmod)

/-- C5: artifact naming is injective and lexically monotone in time. For two
valid instants at least one second apart (distinct at second precision), with
the first chronologically earlier, the generated names differ and the earlier
name is strictly smaller in lexicographic order. -/
theorem backupNameMonotone (t1 t2 : UTCTime) (h1 : t1.valid) (h2 : t2.valid)
    (hlt : chronoLt t1 t2) :
    generateBackupName t1 ≠ generateBackupName t2 ∧
    List.Lex (· < ·) (generateBackupName t1) (generateBackupName t2) := by
  cases t1 with
  | mk y1 mo1 d1 hr1 mi1 s1 =>
  cases t2 with
  | mk y2 mo2 d2 hr2 mi2 s2 =>
  unfold UTCTime.valid at h1 h2
  unfold chronoLt at hlt
  dsimp only at h1 h2 hlt
  obtain ⟨hy1, hmo1a, hmo1b, hd1a, hd1b, hh1, hmi1, hs1⟩ := h1
  obtain ⟨hy2, hmo2a, hmo2b, hd2a, hd2b, hh2, hmi2, hs2⟩ := h2
  have key : List.Lex (· < ·)
      (generateBackupName ⟨y1, mo1, d1, hr1, mi1, s1⟩)
      (generateBackupName ⟨y2, mo2, d2, hr2, mi2, s2⟩) := by
    simp only [generateBackupName, formatTimestamp, backupNameHead, rdbExt,
      List.append_assoc, List.cons_append]
    rcases hlt with hy | ⟨hy, hmo | ⟨hmo, hd | ⟨hd, hh | ⟨hh, hmi | ⟨hmi, hs⟩⟩⟩⟩⟩
    · apply lex_append_left
      exact lex_append_len (by simp [pad4]) (pad4_lex (by omega) (by omega) hy) _ _
    · subst hy
      apply lex_append_left
      apply lex_append_left
      apply List.Lex.cons
      exact lex_append_len (by simp [pad2]) (pad2_lex (by omega) (by omega) hmo) _ _
    · subst hy; subst hmo
      apply lex_append_left
      apply lex_append_left
      apply List.Lex.cons
      apply lex_append_left
      apply List.Lex.cons
      exact lex_append_len (by simp [pad2]) (pad2_lex (by omega) (by omega) hd) _ _
    · subst hy; subst hmo; subst hd
      apply lex_append_left
      apply lex_append_left
      apply List.Lex.cons
      apply lex_append_left
      apply List.Lex.cons
      apply lex_append_left
      apply List.Lex.cons
      exact lex_append_len (by simp [pad2]) (pad2_lex (by omega) (by omega) hh) _ _
    · subst hy; subst hmo; subst hd; subst hh
      apply lex_append_left
      apply lex_append_left
      apply List.Lex.cons
      apply lex_append_left
      apply List.Lex.cons
      apply lex_append_left
      apply List.Lex.cons
      apply lex_append_left
      apply List.Lex.cons
      exact lex_append_len (by simp [pad2]) (pad2_lex (by omega) (by omega) hmi) _ _
    · subst hy; subst hmo; subst hd; subst hh; subst hmi
      apply lex_append_left
      apply lex_append_left
      apply List.Lex.cons
      apply lex_append_left
      apply List.Lex.cons
      apply lex_append_left
      apply List.Lex.cons
      apply lex_append_left
      apply List.Lex.cons
      apply lex_append_left
      apply List.Lex.cons
      exact lex_append_len (by simp [pad2]) (pad2_lex (by omega) (by omega) hs) _ _
  exact ⟨fun heq => lexIrrefl _ (heq ▸ key), key⟩

/-- Witness for C5 at two concrete instants one second apart. -/
theorem backupNameMonotone_witness :
    (UTCTime.valid ⟨2024, 1, 1, 0, 0, 0⟩ ∧ UTCTime.valid ⟨2024, 1, 1, 0, 0, 1⟩ ∧
      chronoLt ⟨2024, 1, 1, 0, 0, 0⟩ ⟨2024, 1, 1, 0, 0, 1⟩) ∧
    (generateBackupName ⟨2024, 1, 1, 0, 0, 0⟩ ≠ generateBackupName ⟨2024, 1, 1, 0, 0, 1⟩ ∧
      List.Lex (· < ·) (generateBackupName ⟨2024, 1, 1, 0, 0, 0⟩)
        (generateBackupName ⟨2024, 1, 1, 0, 0, 1⟩)) :=
  ⟨⟨by decide, by decide, by decide⟩,
   backupNameMonotone _ _ (by decide) (by decide) (by decide)⟩

/-- Error message text wrapped by `LocalStorage.Delete`
(internal/storage/storage.go line 141). -/
def msgDeleteLocalFail : GoErr := "failed to delete backup: ".toList

/-- The operating system error text for a missing path. -/
def msgNoSuchFile : GoErr := "no such file or directory".toList

/-- `LocalStorage.Delete` from internal/storage/storage.go (lines 138-144),
on the set of names stored in the base directory: `os.Remove` removes the
file when it exists and fails with a not-found error when it does not. -/
def localDelete (dir : List GoStr) (backupName : GoStr) :
    Except GoErr (List GoStr) :=
  if backupName ∈ dir then Except.ok (dir.erase backupName)
  else Except.error (msgDeleteLocalFail ++ msgNoSuchFile)

/-- `S3Storage.Delete` from internal/storage/s3.go (lines 118-130), on the set
of object keys in the bucket: DeleteObject on the computed key. The S3
DeleteObject operation is idempotent: deleting an absent key is answered with
success (HTTP 204), so the call returns no error either way. -/
def s3Delete (bucket : List GoStr) (pfx backupName : GoStr) :
    Except GoErr (List GoStr) :=
  Except.ok (bucket.erase (getKey pfx backupName))

/-- Error message text wrapped by `GCPStorage.Delete` (gcp.go line 113). -/
def msgDeleteGCSFail : GoErr := "failed to delete GCS object: ".toList

/-- The GCS client error text for a missing object (ErrObjectNotExist). -/
def msgObjectNotExist : GoErr := "storage: object does not exist".toList

/-- `GCPStorage.Delete` from internal/storage/gcp.go (lines 108-117), on the
set of object names in the bucket: the GCS object delete returns the
not-exist error (HTTP 404) for an absent object. -/
def gcpDelete (bucket : List GoStr) (pfx backupName : GoStr) :
    Except GoErr (List GoStr) :=
  if getObjectName pfx backupName ∈ bucket then
    Except.ok (bucket.erase (getObjectName pfx backupName))
  else Except.error (msgDeleteGCSFail ++ msgObjectNotExist)

/-- C7 counterexample: on the S3-compatible backend, Delete of a name absent
from the bucket returns success, not an error, because the S3 delete is
idempotent; so the claim does not hold of every backend variant. -/
theorem deleteMissingArtifact_counterexample :
    ("missing.rdb".toList : GoStr) ∉ ([] : List GoStr) ∧
    s3Delete [] ("redis-backups".toList) ("missing.rdb".toList) =
      Except.ok [] :=
  ⟨by decide, rfl⟩

/-- C7 amended: Delete of an absent artifact is a reportable error on the
local and native-cloud backends, while the S3-compatible backend reports
success for an absent key; on every variant, Delete never removes or alters
any artifact other than the named one. -/
theorem deleteMissingArtifact_amended (dir bucket : List GoStr) (pfx name : GoStr)
    (hl : name ∉ dir) (hg : getObjectName pfx name ∉ bucket)
    (hs : getKey pfx name ∉ bucket) :
    localDelete dir name = Except.error (msgDeleteLocalFail ++ msgNoSuchFile) ∧
    gcpDelete bucket pfx name = Except.error (msgDeleteGCSFail ++ msgObjectNotExist) ∧
    s3Delete bucket pfx name = Except.ok bucket ∧
    (∀ d r, localDelete d name = Except.ok r →
      (∀ x ∈ d, x ≠ name → x ∈ r) ∧ ∀ x ∈ r, x ∈ d) ∧
    (∀ b r, s3Delete b pfx name = Except.ok r →
      (∀ x ∈ b, x ≠ getKey pfx name → x ∈ r) ∧ ∀ x ∈ r, x ∈ b) ∧
    (∀ b r, gcpDelete b pfx name = Except.ok r →
      (∀ x ∈ b, x ≠ getObjectName pfx name → x ∈ r) ∧ ∀ x ∈ r, x ∈ b) := by
  refine ⟨?_, ?_, ?_, ?_, ?_, ?_⟩
  · simp [localDelete, hl]
  · simp [gcpDelete, hg]
  · simp [s3Delete, List.erase_of_not_mem hs]
  · intro d r hr
    unfold localDelete at hr
    by_cases hmem : name ∈ d
    · rw [if_pos hmem] at hr
      cases hr
      exact ⟨fun x hx hne => (List.mem_erase_of_ne hne).mpr hx,
        fun x hx => List.mem_of_mem_erase hx⟩
    · rw [if_neg hmem] at hr
      cases hr
  · intro b r hr
    unfold s3Delete at hr
    cases hr
    exact ⟨fun x hx hne => (List.mem_erase_of_ne hne).mpr hx,
      fun x hx => List.mem_of_mem_erase hx⟩
  · intro b r hr
    unfold gcpDelete at hr
    by_cases hmem : getObjectName pfx name ∈ b
    · rw [if_pos hmem] at hr
      cases hr
      exact ⟨fun x hx hne => (List.mem_erase_of_ne hne).mpr hx,
        fun x hx => List.mem_of_mem_erase hx⟩
    · rw [if_neg hmem] at hr
      cases hr

/-- Witness for the amended C7 on a one-key bucket and a one-file directory
that do not hold the deleted name. -/
theorem deleteMissingArtifact_amended_witness :
    (("missing.rdb".toList : GoStr) ∉ ["kept.rdb".toList] ∧
      getObjectName ("pfx".toList) ("missing.rdb".toList) ∉
        ["pfx/kept.rdb".toList] ∧
      getKey ("pfx".toList) ("missing.rdb".toList) ∉ ["pfx/kept.rdb".toList]) ∧
    (localDelete ["kept.rdb".toList] ("missing.rdb".toList) =
        Except.error (msgDeleteLocalFail ++ msgNoSuchFile) ∧
      gcpDelete ["pfx/kept.rdb".toList] ("pfx".toList) ("missing.rdb".toList) =
        Except.error (msgDeleteGCSFail ++ msgObjectNotExist) ∧
      s3Delete ["pfx/kept.rdb".toList] ("pfx".toList) ("missing.rdb".toList) =
        Except.ok ["pfx/kept.rdb".toList] ∧
      (∀ d r, localDelete d ("missing.rdb".toList) = Except.ok r →
        (∀ x ∈ d, x ≠ "missing.rdb".toList → x ∈ r) ∧ ∀ x ∈ r, x ∈ d) ∧
      (∀ b r, s3Delete b ("pfx".toList) ("missing.rdb".toList) = Except.ok r →
        (∀ x ∈ b, x ≠ getKey ("pfx".toList) ("missing.rdb".toList) → x ∈ r) ∧
          ∀ x ∈ r, x ∈ b) ∧
      (∀ b r, gcpDelete b ("pfx".toList) ("missing.rdb".toList) = Except.ok r →
        (∀ x ∈ b, x ≠ getObjectName ("pfx".toList) ("missing.rdb".toList) → x ∈ r) ∧
          ∀ x ∈ r, x ∈ b)) :=
  ⟨⟨by decide, by decide, by decide⟩,
   deleteMissingArtifact_amended _ _ _ _ (by decide) (by decide) (by decide)⟩

/-- Error message text wrapped by the storage Upload implementations when the
source file cannot be opened (storage.go line 87). -/
def msgOpenFail : GoErr := "failed to open source file: ".toList

/-- `LocalStorage.Upload` from internal/storage/storage.go (lines 81-115), as
a state transformer on the destination directory contents (name, content):
the source is `some content` when the source path exists on the local
filesystem and `none` when it does not. `os.Open` runs before `os.Create`,
so a missing source fails the upload before any destination file is
created; a successful copy stores the content under the backup name,
truncating any previous file of that name. -/
def localUpload (sourceContent : Option GoStr) (dir : List (GoStr × GoStr))
    (backupName : GoStr) : Except GoErr Unit × List (GoStr × GoStr) :=
  match sourceContent with
  | none => (Except.error (msgOpenFail ++ msgNoSuchFile), dir)
  | some content =>
    (Except.ok (), (backupName, content) :: dir.filter (fun e => !(e.1 == backupName)))

/-- C8: a local Upload whose source path does not exist returns an upload
error and leaves the destination directory, hence the backend listing,
unchanged. -/
theorem uploadMissingSource (dir : List (GoStr × GoStr)) (backupName : GoStr) :
    (localUpload none dir backupName).1 = Except.error (msgOpenFail ++ msgNoSuchFile) ∧
    (localUpload none dir backupName).2 = dir :=
  ⟨rfl, rfl⟩

/-- Strips trailing separators, the first step of Go filepath.Base. -/
def dropTrailingSlashes (p : GoStr) : GoStr :=
  (p.reverse.dropWhile (fun c => c == '/')).reverse

/-- The part of a path after its last separator. -/
def lastComponent (p : GoStr) : GoStr :=
  (p.reverse.takeWhile (fun c => !(c == '/'))).reverse

/-- Go `filepath.Base`: dot for the empty path, the bare separator for a path
of separators only, otherwise the last element of the path with trailing
separators removed. -/
def filepathBase (path : GoStr) : GoStr :=
  if path = [] then ['.']
  else
    match dropTrailingSlashes path with
    | [] => ['/']
    | c :: cs => lastComponent (c :: cs)

/-- The scanning loop of Go `filepath.Ext` over the reversed path: walks back
from the end, stops at a separator with no extension, and returns the suffix
from the last dot inclusive. -/
def extGo : GoStr → GoStr → GoStr
  | [], _ => []
  | c :: rest, acc =>
    if c == '/' then []
    else if c == '.' then '.' :: acc
    else extGo rest (c :: acc)

/-- Go `filepath.Ext`. -/
def filepathExt (p : GoStr) : GoStr := extGo p.reverse []

/-- `S3Storage.List` from internal/storage/s3.go (lines 84-115), as a function
of the object keys returned under the configured prefix: each key is reduced
to its base name, names with the backup extension are kept, and the result is
sorted ascending as sort.Strings does. -/
def s3List (keys : List GoStr) : List GoStr :=
  ((keys.map filepathBase).filter (fun n => hasSuffix n rdbExt)).mergeSort
    (fun a b => decide (a ≤ b))

/-- `GCPStorage.List` from internal/storage/gcp.go (lines 76-105): identical
base-name, extension-filter and sort steps over the iterated object names. -/
def gcpList (objectNames : List GoStr) : List GoStr :=
  ((objectNames.map filepathBase).filter (fun n => hasSuffix n rdbExt)).mergeSort
    (fun a b => decide (a ≤ b))

/-- `LocalStorage.List` from internal/storage/storage.go (lines 118-135), as a
function of the directory entries (name, isDir): keeps non-directory entries
whose `filepath.Ext` is the backup extension, sorted ascending. -/
def localList (entries : List (GoStr × Bool)) : List GoStr :=
  ((entries.filter (fun e => !e.2 && (filepathExt e.1 == rdbExt))).map
    (fun e => e.1)).mergeSort (fun a b => decide (a ≤ b))

/-- The base of a path is the bare separator or contains no separator. -/
theorem filepathBase_no_slash (p : GoStr) :
    filepathBase p = ['/'] ∨ '/' ∉ filepathBase p := by
  unfold filepathBase
  by_cases hp : p = []
  · right
    simp [hp]
  · rw [if_neg hp]
    cases hd : dropTrailingSlashes p with
    | nil => left; rfl
    | cons c cs =>
      right
      intro hmem
      unfold lastComponent at hmem
      rw [List.mem_reverse] at hmem
      have := List.mem_takeWhile_imp hmem
      simp at this

/-- A name carrying the backup extension is not the bare separator. -/
theorem hasSuffix_rdb_ne_slash (n : GoStr) (h : hasSuffix n rdbExt = true) :
    n ≠ ['/'] := by
  intro hn
  subst hn
  have := (List.isSuffixOf_iff_suffix).mp h
  have hlen := this.length_le
  simp [rdbExt] at hlen

/-- The scan of `filepath.Ext` returns a suffix of the scanned path whenever
it returns a nonempty extension. -/
theorem extGo_suffix (rev : GoStr) : ∀ acc : GoStr, extGo rev acc ≠ [] →
    extGo rev acc <:+ (rev.reverse ++ acc) := by
  induction rev with
  | nil => intro acc h; exact absurd rfl h
  | cons c rest ih =>
    intro acc h
    unfold extGo at h ⊢
    by_cases hc : (c == '/') = true
    · rw [if_pos hc] at h
      exact absurd rfl h
    · rw [if_neg hc] at h ⊢
      by_cases hdot : (c == '.') = true
      · rw [if_pos hdot]
        have hcd : c = '.' := eq_of_beq hdot
        subst hcd
        rw [List.reverse_cons, List.append_assoc]
        exact List.suffix_append _ _
      · rw [if_neg hdot] at h ⊢
        have := ih (c :: acc) h
        rw [List.reverse_cons, List.append_assoc]
        simpa using this

/-- A nonempty extension is a suffix of the path. -/
theorem filepathExt_suffix (p : GoStr) (h : filepathExt p ≠ []) :
    filepathExt p <:+ p := by
  have := extGo_suffix p.reverse [] h
  simpa using this

/-- C9: every name returned by List, on every backend variant, is a bare file
name: it contains no separator and carries the backup extension. The object
store variants reduce each key to its final path component, and the local
variant excludes directory entries even when their names carry the
extension (directory entry names are separator free by the operating
system). -/
theorem listBareNames (keys objNames : List GoStr) (entries : List (GoStr × Bool))
    (hent : ∀ e ∈ entries, '/' ∉ e.1) :
    (∀ n ∈ s3List keys,
      (∃ k ∈ keys, n = filepathBase k) ∧ '/' ∉ n ∧ hasSuffix n rdbExt = true) ∧
    (∀ n ∈ gcpList objNames,
      (∃ k ∈ objNames, n = filepathBase k) ∧ '/' ∉ n ∧ hasSuffix n rdbExt = true) ∧
    (∀ n ∈ localList entries,
      '/' ∉ n ∧ hasSuffix n rdbExt = true ∧ (n, false) ∈ entries) ∧
    (∀ nm, (nm, true) ∈ entries → (nm, false) ∈ entries ∨ nm ∉ localList entries) := by
  have hobj : ∀ l : List GoStr, ∀ n ∈ ((l.map filepathBase).filter
      (fun n => hasSuffix n rdbExt)).mergeSort (fun a b => decide (a ≤ b)),
      (∃ k ∈ l, n = filepathBase k) ∧ '/' ∉ n ∧ hasSuffix n rdbExt = true := by
    intro l n hn
    rw [List.mem_mergeSort] at hn
    obtain ⟨hmap, hsuf⟩ := List.mem_filter.mp hn
    obtain ⟨k, hk, hbase⟩ := List.mem_map.mp hmap
    refine ⟨⟨k, hk, hbase.symm⟩, ?_, hsuf⟩
    rcases filepathBase_no_slash k with h | h
    · rw [hbase] at h
      exact absurd h (hasSuffix_rdb_ne_slash n hsuf)
    · rw [← hbase]
      exact h
  have hloc : ∀ n ∈ localList entries,
      '/' ∉ n ∧ hasSuffix n rdbExt = true ∧ (n, false) ∈ entries := by
    intro n hn
    unfold localList at hn
    rw [List.mem_mergeSort] at hn
    obtain ⟨e, hef, h1⟩ := List.mem_map.mp hn
    obtain ⟨hee, hpred⟩ := List.mem_filter.mp hef
    obtain ⟨en, ed⟩ := e
    simp only [Bool.and_eq_true, Bool.not_eq_true', beq_iff_eq] at hpred
    obtain ⟨hed, hextq⟩ := hpred
    have hname : en = n := h1
    subst hname hed
    refine ⟨hent _ hee, ?_, hee⟩
    have hne : filepathExt en ≠ [] := by
      rw [hextq]; decide
    have hsuffix : rdbExt <:+ en := hextq ▸ filepathExt_suffix en hne
    exact List.isSuffixOf_iff_suffix.mpr hsuffix
  refine ⟨hobj keys, hobj objNames, hloc, ?_⟩
  intro nm htrue
  by_cases hf : (nm, false) ∈ entries
  · exact Or.inl hf
  · right
    intro hmem
    exact hf (hloc nm hmem).2.2

/-- Witness for C9 on concrete keys with nested and separator-only objects,
and directory entries including a directory named with the extension. -/
theorem listBareNames_witness :
    (∀ e ∈ [("a.rdb".toList, false), ("sub.rdb".toList, true)], '/' ∉ e.1) ∧
    ((∀ n ∈ s3List ["p/a.rdb".toList, "p/sub/b.rdb".toList, "///".toList],
      (∃ k ∈ ["p/a.rdb".toList, "p/sub/b.rdb".toList, "///".toList],
        n = filepathBase k) ∧ '/' ∉ n ∧ hasSuffix n rdbExt = true) ∧
    (∀ n ∈ gcpList ["q/c.rdb".toList],
      (∃ k ∈ ["q/c.rdb".toList], n = filepathBase k) ∧ '/' ∉ n ∧
        hasSuffix n rdbExt = true) ∧
    (∀ n ∈ localList [("a.rdb".toList, false), ("sub.rdb".toList, true)],
      '/' ∉ n ∧ hasSuffix n rdbExt = true ∧
        (n, false) ∈ [("a.rdb".toList, false), ("sub.rdb".toList, true)]) ∧
    (∀ nm, (nm, true) ∈ [("a.rdb".toList, false), ("sub.rdb".toList, true)] →
      (nm, false) ∈ [("a.rdb".toList, false), ("sub.rdb".toList, true)] ∨
        nm ∉ localList [("a.rdb".toList, false), ("sub.rdb".toList, true)])) :=
  ⟨by decide, listBareNames _ _ _ (by decide)⟩
